import Mathlib

/-!
Verification of the Kubernetes metadata controller (`metadata_controller.go`):
the controller watches Endpoints objects, reconciles them through a rate-limited
work queue, and maintains a per-node `MetadataMapperBundle` in a shared TTL cache
mapping pod namespace and pod name to the set of service names fronting the pod.
The embedding below translates the pure data manipulation of the controller; Go maps
are embedded as association lists (deterministic insertion order, which is
observationally irrelevant here because all map writes are keyed), mutexes and
TTL bookkeeping are not modelled (no time, single-threaded state passing).
-/

/-! ## Association-list helpers, standing in for Go maps -/

def lookupA {α : Type} : List (String × α) → String → Option α
  | [], _ => none
  | (k, v) :: t, q => if k = q then some v else lookupA t q

def setA {α : Type} : List (String × α) → String → α → List (String × α)
  | [], k, v => [(k, v)]
  | (k2, w) :: t, k, v => if k2 = k then (k, v) :: t else (k2, w) :: setA t k v

def eraseA {α : Type} : List (String × α) → String → List (String × α)
  | [], _ => []
  | (k2, w) :: t, k => if k2 = k then eraseA t k else (k2, w) :: eraseA t k

def keysOf {α : Type} (l : List (String × α)) : List String := l.map Prod.fst

def nodupKeys {α : Type} (l : List (String × α)) : Prop := (keysOf l).Nodup

/-! ## Services mapper and bundle -/

/-- Modelled from the spec: the Services Mapper (`ServicesMapper`, defined outside
the excerpt) maps pod namespace to pod name to the set of service names. -/
abbrev ServiceSet := List String

abbrev PodServices := List (String × ServiceSet)

abbrev ServicesMapper := List (String × PodServices)

/-- Insert a service name into a service-name set (set semantics: no duplicate). -/
def insertSvc (s : ServiceSet) (svc : String) : ServiceSet :=
  if svc ∈ s then s else s ++ [svc]

/-- Remove a service name from a service-name set. -/
def removeSvc (s : ServiceSet) (svc : String) : ServiceSet :=
  s.filter (fun x => ¬ x = svc)

/-- Modelled from the spec: `ServicesMapper.Set` adds the name of the endpoint object
to the service-name set of that pod, merging rather than replacing, creating the
namespace and pod entries when absent. -/
def ServicesMapper.Set (m : ServicesMapper) (ns podName svc : String) : ServicesMapper :=
  let pods := (lookupA m ns).getD []
  let s := (lookupA pods podName).getD []
  setA m ns (setA pods podName (insertSvc s svc))

/-- Modelled from the spec: `ServicesMapper.Delete` removes the service name from
the service set of every pod under the namespace and prunes pod entries whose service
set becomes empty. -/
def ServicesMapper.Delete (m : ServicesMapper) (ns svc : String) : ServicesMapper :=
  match lookupA m ns with
  | none => m
  | some pods =>
      setA m ns (((pods.map (fun p => (p.1, removeSvc p.2 svc))).filter
        (fun p => ¬ p.2.isEmpty)))

/-- Modelled from the spec: `ServicesForPod` looks up namespace then pod name in
the Services Mapper, reporting found or not-found. -/
def ServicesMapper.ServicesForPod (m : ServicesMapper) (ns podName : String) : Option ServiceSet :=
  match lookupA m ns with
  | none => none
  | some pods => lookupA pods podName

/-- Modelled from the spec: the per-node Bundle wraps a Services Mapper (the
mutual-exclusion guard is not modelled; state is passed explicitly). -/
structure MetadataMapperBundle where
  Services : ServicesMapper
deriving DecidableEq

def newMetadataMapperBundle : MetadataMapperBundle := ⟨[]⟩

/-! ## The TTL cache (`pkg/util/cache`) -/

/-- A value stored in the agent cache: either the expected bundle shape, or some
other payload (`raw`), letting the type assertion of the read path be expressed. -/
inductive CacheVal where
  | bundle : MetadataMapperBundle → CacheVal
  | raw : String → CacheVal
deriving DecidableEq

abbrev Cache := List (String × CacheVal)

def cacheGet (c : Cache) (k : String) : Option CacheVal := lookupA c k

def cacheSet (c : Cache) (k : String) (v : CacheVal) : Cache := setA c k v

/-- Modelled from the spec: cache keys are the fixed agent key of the controller
joined with the node name (source constant `metadataMapperCachePrefix`). -/
def metadataMapperCacheKeyRoot : String := "KubernetesMetadataMapping"

/-- Modelled from the spec: `cache.BuildAgentKey` joins its components with a
slash, giving the key format fixed-part slash node-name. -/
def BuildAgentKey (p n : String) : String := p ++ "/" ++ n

def bundleCacheKey (nodeName : String) : String :=
  BuildAgentKey metadataMapperCacheKeyRoot nodeName

/-- Modelled from the spec: `getMetadataMapBundle` looks the Bundle of the node up in
the agent cache, failing when the entry is absent or not a bundle. -/
def getMetadataMapBundle (nodeName : String) (c : Cache) : Option MetadataMapperBundle :=
  match cacheGet c (bundleCacheKey nodeName) with
  | some (CacheVal.bundle b) => some b
  | _ => none

/-! ## Endpoint objects (the relevant fields of `k8s.io/api/core/v1`) -/

structure ObjectReference where
  Kind : String
  Namespace : String
  Name : String
deriving DecidableEq

structure EndpointAddress where
  TargetRef : Option ObjectReference
  NodeName : Option String
deriving DecidableEq

structure EndpointSubset where
  Addresses : List EndpointAddress
deriving DecidableEq

structure Endpoints where
  Namespace : String
  Name : String
  Subsets : List EndpointSubset
deriving DecidableEq

/-! ## mapService -/

/-- The address-validity filter in the inner loop of `mapService`: an address yields a
(node name, pod namespace, pod name) triple exactly when its target reference is
present, of kind Pod, with non-empty name and namespace, and its node name is
present; otherwise the address is skipped. -/
def addressInfo (a : EndpointAddress) : Option (String × String × String) :=
  match a.TargetRef with
  | none => none
  | some ref =>
    if ¬ ref.Kind = "Pod" then none
    else if ref.Name = "" ∨ ref.Namespace = "" then none
    else
      match a.NodeName with
      | none => none
      | some nodeName => some (nodeName, ref.Namespace, ref.Name)

abbrev NodeToPods := List (String × List (String × String))

/-- One iteration of the address loop of `mapService` over the transient
`nodeToPods` map: `nodeToPods[nodeName][namespace] = podName`. -/
def ntpStep (acc : NodeToPods) (a : EndpointAddress) : NodeToPods :=
  match addressInfo a with
  | none => acc
  | some (nodeName, ns, podName) =>
      setA acc nodeName (setA ((lookupA acc nodeName).getD []) ns podName)

def allAddresses (eps : Endpoints) : List EndpointAddress :=
  (eps.Subsets.map EndpointSubset.Addresses).flatten

/-- The transient node-to-pods map built by the first half of `mapService`. -/
def nodeToPodsOf (eps : Endpoints) : NodeToPods :=
  (allAddresses eps).foldl ntpStep []

def lookupNtp (m : NodeToPods) (node ns : String) : Option String :=
  match lookupA m node with
  | none => none
  | some pods => lookupA pods ns

/-- Second half of `mapService`, for one node of the transient map: fetch or
create the bundle of the node, merge the service name of every pod, write it back. -/
def mapServiceNode (svc : String) (c : Cache) (entry : String × List (String × String)) : Cache :=
  let metaBundle :=
    match getMetadataMapBundle entry.1 c with
    | some b => b
    | none => newMetadataMapperBundle
  let metaBundle := entry.2.foldl
    (fun b p => { b with Services := ServicesMapper.Set b.Services p.1 p.2 svc }) metaBundle
  cacheSet c (bundleCacheKey entry.1) (CacheVal.bundle metaBundle)

/-- `mapService` from the source: build the transient node-to-pods map, then
merge the name of the endpoint object into the cached bundle of each touched node. -/
def mapService (eps : Endpoints) (c : Cache) : Cache :=
  (nodeToPodsOf eps).foldl (mapServiceNode eps.Name) c

/-! ## mapDeletedService -/

/-- The node loop of `mapDeletedService`, exactly as the source has it: when a
node has no cached bundle the function returns immediately (the
early return of the source), otherwise it deletes the service under the namespace from
the bundle of that node, writes the bundle back, and continues. -/
def mapDeletedServiceLoop (ns svc : String) (nodes : List String) (c : Cache) : Cache :=
  match nodes with
  | [] => c
  | node :: rest =>
    match getMetadataMapBundle node c with
    | none => c
    | some b =>
      let b2 : MetadataMapperBundle := { b with Services := ServicesMapper.Delete b.Services ns svc }
      mapDeletedServiceLoop ns svc rest (cacheSet c (bundleCacheKey node) (CacheVal.bundle b2))

/-- `mapDeletedService` from the source: list all nodes (an error propagates),
then run the cleanup loop; the second component is the returned error. -/
def mapDeletedService (ns svc : String) (nodes : Except String (List String)) (c : Cache) :
    Cache × Option String :=
  match nodes with
  | Except.error e => (c, some e)
  | Except.ok ns2 => (mapDeletedServiceLoop ns svc ns2 c, none)

/-! ## reconcileKey -/

/-- Splitting a list of characters at every slash. -/
def splitOnSlash : List Char → List (List Char)
  | [] => [[]]
  | c :: t =>
    let r := splitOnSlash t
    if c = '/' then [] :: r
    else
      match r with
      | [] => [[c]]
      | h :: t2 => (c :: h) :: t2

/-- Modelled from the spec: `cache.SplitMetaNamespaceKey` splits a reconciliation
key of the form namespace slash name (a bare name meaning the empty namespace);
any other shape is an error. -/
def SplitMetaNamespaceKey (key : String) : Except String (String × String) :=
  match splitOnSlash key.data with
  | [name] => Except.ok (String.mk [], String.mk name)
  | [ns, name] => Except.ok (String.mk ns, String.mk name)
  | _ => Except.error ( "unexpected key format: " ++ key)

/-- Result of the endpoints lister lookup: found, not-found, or another lookup
failure (the remaining err-not-nil branch of the source). -/
inductive EndpointsLookup where
  | found : Endpoints → EndpointsLookup
  | notFound : EndpointsLookup
  | lookupFailure : String → EndpointsLookup
deriving DecidableEq

/-- `reconcileKey` from the source: split the key; a not-found lookup routes to
`mapDeletedService`, any other lookup failure is returned, and a found object
goes through `mapService` (which always succeeds). -/
def reconcileKey (lookup : String → String → EndpointsLookup)
    (nodes : Except String (List String)) (c : Cache) (key : String) :
    Cache × Option String :=
  match SplitMetaNamespaceKey key with
  | Except.error e => (c, some e)
  | Except.ok (ns, name) =>
    match lookup ns name with
    | EndpointsLookup.notFound => mapDeletedService ns name nodes c
    | EndpointsLookup.lookupFailure e => (c, some e)
    | EndpointsLookup.found eps => (mapService eps c, none)

/-! ## The work queue and the worker loop -/

def maxRetries : Nat := 15

def numWorkers : Nat := 2

/-- Modelled from the spec: the rate-limited work queue as a deduplicating
pending list plus a per-key retry counter map. -/
structure WorkQueue where
  pending : List String
  retries : List (String × Nat)
deriving DecidableEq

def WorkQueue.numRequeues (q : WorkQueue) (k : String) : Nat :=
  (lookupA q.retries k).getD 0

/-- Modelled from the spec: `Forget` clears the retry counter of the key. -/
def WorkQueue.forget (q : WorkQueue) (k : String) : WorkQueue :=
  { q with retries := eraseA q.retries k }

/-- Modelled from the spec: `Add` enqueues the key if it is not already pending. -/
def WorkQueue.add (q : WorkQueue) (k : String) : WorkQueue :=
  { q with pending := if k ∈ q.pending then q.pending else q.pending ++ [k] }

/-- Modelled from the spec: `AddRateLimited` re-enqueues the key (after the
delay of the rate limiter, not modelled) and increments its retry counter. -/
def WorkQueue.addRateLimited (q : WorkQueue) (k : String) : WorkQueue :=
  { pending := if k ∈ q.pending then q.pending else q.pending ++ [k],
    retries := setA q.retries k (WorkQueue.numRequeues q k + 1) }

/-- `processNextWorkItem` from the source: pop a key, reconcile it; on success
`Forget`; on failure `AddRateLimited` while the retry count is below
`maxRetries`, otherwise drop the key via `Forget`. -/
def processNextWorkItem (reconcile : String → Option String) (q : WorkQueue) : WorkQueue :=
  match q.pending with
  | [] => q
  | key :: rest =>
    let q1 : WorkQueue := { q with pending := rest }
    match reconcile key with
    | none => WorkQueue.forget q1 key
    | some _ =>
      if WorkQueue.numRequeues q1 key < maxRetries then WorkQueue.addRateLimited q1 key
      else WorkQueue.forget q1 key

/-! ## Event handlers -/

/-- An event payload as delivered to the delete handler: a typed Endpoints
object, a deletion tombstone wrapping a payload, or some other object. -/
inductive RawObj where
  | endpoints : Endpoints → RawObj
  | tombstone : RawObj → RawObj
  | other : String → RawObj
deriving DecidableEq

def objectKey (e : Endpoints) : String := e.Namespace ++ "/" ++ e.Name

/-- Modelled from the spec: `cache.MetaNamespaceKeyFunc` resolves a payload to
its namespace slash name reconciliation key, extracting the best-known identity
from a tombstone, and failing on an object with no metadata. -/
def MetaNamespaceKeyFunc : RawObj → Except String String
  | RawObj.endpoints e => Except.ok (objectKey e)
  | RawObj.tombstone inner => MetaNamespaceKeyFunc inner
  | RawObj.other s => Except.error ( "object has no meta: " ++ s)

/-- `enqueue` from the source: compute the key of the payload and add it to the work
queue; on a key-extraction error log and drop the event. -/
def enqueue (q : WorkQueue) (obj : RawObj) : WorkQueue :=
  match MetaNamespaceKeyFunc obj with
  | Except.error _ => q
  | Except.ok key => WorkQueue.add q key

/-- `deleteEndpoints` from the source: enqueue a typed Endpoints payload, or a
tombstone whose contained object is an Endpoints; log and drop anything else. -/
def deleteEndpoints (q : WorkQueue) (obj : RawObj) : WorkQueue :=
  match obj with
  | RawObj.endpoints _ => enqueue q obj
  | RawObj.tombstone inner =>
    match inner with
    | RawObj.endpoints _ => enqueue q obj
    | _ => q
  | RawObj.other _ => q

/-! ## The read path -/

/-- `GetPodMetadataNames` from the source: look the bundle of the node up in the
cache (absence is not an error), fail on a value of the wrong shape, then look
the pod up in the Services Mapper of the bundle (absence again not an error) and
render each service name as a kube_service tag. -/
def GetPodMetadataNames (c : Cache) (nodeName ns podName : String) :
    Except String (List String) :=
  let cacheKey := bundleCacheKey nodeName
  match cacheGet c cacheKey with
  | none => Except.ok []
  | some (CacheVal.raw _) => Except.error ( "invalid cache format for the cacheKey: " ++ cacheKey)
  | some (CacheVal.bundle metaBundle) =>
    match ServicesMapper.ServicesForPod metaBundle.Services ns podName with
    | none => Except.ok []
    | some serviceList => Except.ok (serviceList.map (fun s => "kube_service:" ++ s))

/-- The cache read primitive with the cache state threaded explicitly: a get
returns the cache unchanged alongside the value. -/
def cacheGetS (c : Cache) (k : String) : Cache × Option CacheVal := (c, lookupA c k)

/-- `GetPodMetadataNames` with the cache state threaded through every cache
operation, making the effect of the read path on the cache explicit. -/
def GetPodMetadataNamesS (c : Cache) (nodeName ns podName : String) :
    Cache × Except String (List String) :=
  let cacheKey := bundleCacheKey nodeName
  match cacheGetS c cacheKey with
  | (c1, none) => (c1, Except.ok [])
  | (c1, some (CacheVal.raw _)) =>
      (c1, Except.error ( "invalid cache format for the cacheKey: " ++ cacheKey))
  | (c1, some (CacheVal.bundle metaBundle)) =>
    match ServicesMapper.ServicesForPod metaBundle.Services ns podName with
    | none => (c1, Except.ok [])
    | some serviceList => (c1, Except.ok (serviceList.map (fun s => "kube_service:" ++ s)))

/-- The service-name set visible at a (node, namespace, pod name) triple in the
cache (empty when the node has no bundle or the pod is unknown). -/
def servicesAt (c : Cache) (node ns pod : String) : List String :=
  match cacheGet c (bundleCacheKey node) with
  | some (CacheVal.bundle b) => (ServicesMapper.ServicesForPod b.Services ns pod).getD []
  | _ => []

/-! ## Association-list lemmas -/

theorem lookupA_setA_self {α : Type} (l : List (String × α)) (k : String) (v : α) :
    lookupA (setA l k v) k = some v := by
  induction l with
  | nil => simp [setA, lookupA]
  | cons p t ih =>
    obtain ⟨k2, w⟩ := p
    by_cases h : k2 = k
    · simp [setA, h, lookupA]
    · simp [setA, h, lookupA, ih]

theorem keysOf_nil {α : Type} : keysOf ([] : List (String × α)) = [] := rfl

theorem keysOf_cons {α : Type} (p : String × α) (l : List (String × α)) :
    keysOf (p :: l) = p.1 :: keysOf l := rfl

theorem lookupA_setA_ne {α : Type} (l : List (String × α)) (k q : String) (v : α)
    (h : ¬ q = k) : lookupA (setA l k v) q = lookupA l q := by
  have h2 : ¬ k = q := fun hh => h hh.symm
  induction l with
  | nil => simp [setA, lookupA, h2]
  | cons p t ih =>
    obtain ⟨k2, w⟩ := p
    by_cases hk : k2 = k
    · subst hk
      simp [setA, lookupA, h2]
    · by_cases hq : k2 = q
      · simp [setA, lookupA, hk, hq, h]
      · simp [setA, lookupA, hk, hq, ih]

theorem mem_setA_elim {α : Type} (l : List (String × α)) (k : String) (v : α)
    (p : String × α) (h : p ∈ setA l k v) : p = (k, v) ∨ p ∈ l := by
  induction l with
  | nil =>
    simp [setA] at h
    exact Or.inl h
  | cons q t ih =>
    obtain ⟨k2, w⟩ := q
    by_cases hk : k2 = k
    · simp only [setA, if_pos hk] at h
      rcases List.mem_cons.mp h with h1 | h2
      · exact Or.inl h1
      · exact Or.inr (List.mem_cons_of_mem _ h2)
    · simp only [setA, if_neg hk] at h
      rcases List.mem_cons.mp h with h1 | h2
      · exact Or.inr (h1 ▸ List.mem_cons_self _ _)
      · rcases ih h2 with h3 | h4
        · exact Or.inl h3
        · exact Or.inr (List.mem_cons_of_mem _ h4)

theorem mem_keysOf_setA {α : Type} (l : List (String × α)) (k q : String) (v : α) :
    q ∈ keysOf (setA l k v) ↔ q ∈ keysOf l ∨ q = k := by
  induction l with
  | nil => simp [setA, keysOf]
  | cons p t ih =>
    obtain ⟨k2, w⟩ := p
    by_cases hk : k2 = k
    · subst hk
      have hs : setA ((k2, w) :: t) k2 v = (k2, v) :: t := by simp [setA]
      rw [hs]
      simp only [keysOf_cons, List.mem_cons]
      tauto
    · have hs : setA ((k2, w) :: t) k v = (k2, w) :: setA t k v := by simp [setA, hk]
      rw [hs]
      simp only [keysOf_cons, List.mem_cons, ih]
      tauto

theorem nodupKeys_setA {α : Type} (l : List (String × α)) (k : String) (v : α)
    (h : nodupKeys l) : nodupKeys (setA l k v) := by
  induction l with
  | nil => simp [setA, nodupKeys, keysOf]
  | cons p t ih =>
    obtain ⟨k2, w⟩ := p
    by_cases hk : k2 = k
    · subst hk
      have hs : setA ((k2, w) :: t) k2 v = (k2, v) :: t := by simp [setA]
      rw [hs]
      simp only [nodupKeys, keysOf_cons, List.nodup_cons] at h ⊢
      exact h
    · have hs : setA ((k2, w) :: t) k v = (k2, w) :: setA t k v := by simp [setA, hk]
      rw [hs]
      simp only [nodupKeys, keysOf_cons, List.nodup_cons] at h ⊢
      refine ⟨fun hm => ?_, ih h.2⟩
      rcases (mem_keysOf_setA t k k2 v).mp hm with h1 | h2
      · exact h.1 h1
      · exact hk h2

theorem lookupA_eraseA_self {α : Type} (l : List (String × α)) (k : String) :
    lookupA (eraseA l k) k = none := by
  induction l with
  | nil => simp [eraseA, lookupA]
  | cons p t ih =>
    obtain ⟨k2, w⟩ := p
    by_cases hk : k2 = k
    · simpa [eraseA, hk] using ih
    · simp [eraseA, hk, lookupA, ih]

theorem mem_of_lookupA {α : Type} (l : List (String × α)) (k : String) (v : α)
    (h : lookupA l k = some v) : (k, v) ∈ l := by
  induction l with
  | nil => simp [lookupA] at h
  | cons p t ih =>
    obtain ⟨k2, w⟩ := p
    by_cases hk : k2 = k
    · subst hk
      have hl : lookupA ((k2, w) :: t) k2 = some w := by simp [lookupA]
      rw [hl] at h
      injection h with h2
      subst h2
      exact List.mem_cons_self _ _
    · have hl : lookupA ((k2, w) :: t) k = lookupA t k := by simp [lookupA, hk]
      rw [hl] at h
      exact List.mem_cons_of_mem _ (ih h)

theorem lookupA_none_iff {α : Type} (l : List (String × α)) (k : String) :
    lookupA l k = none ↔ ¬ k ∈ keysOf l := by
  induction l with
  | nil => simp [lookupA, keysOf]
  | cons p t ih =>
    obtain ⟨k2, w⟩ := p
    by_cases hk : k2 = k
    · subst hk
      simp [lookupA, keysOf]
    · simp [lookupA, hk, keysOf, ih, Ne.symm hk]

theorem lookupA_of_mem_nodup {α : Type} (l : List (String × α)) (k : String) (v : α)
    (hnd : nodupKeys l) (h : (k, v) ∈ l) : lookupA l k = some v := by
  induction l with
  | nil => simp at h
  | cons p t ih =>
    obtain ⟨k2, w⟩ := p
    simp only [nodupKeys, keysOf, List.map_cons, List.nodup_cons] at hnd
    rcases List.mem_cons.mp h with h1 | h2
    · rw [Prod.ext_iff] at h1
      obtain ⟨h1a, h1b⟩ := h1
      simp only at h1a h1b
      subst h1a
      simp [lookupA, h1b]
    · have hk : ¬ k2 = k := by
        intro hh
        subst hh
        exact hnd.1 (List.mem_map.mpr ⟨(k2, v), h2, rfl⟩)
      simp only [lookupA, if_neg hk]
      exact ih hnd.2 h2

/-! ## Cache-key and cache lemmas -/

theorem bundleCacheKey_inj (a b : String) (h : bundleCacheKey a = bundleCacheKey b) :
    a = b := by
  have hd := congrArg String.data h
  simp only [bundleCacheKey, BuildAgentKey, String.data_append] at hd
  exact String.ext (List.append_cancel_left hd)

theorem cacheGet_cacheSet_self (c : Cache) (k : String) (v : CacheVal) :
    cacheGet (cacheSet c k v) k = some v :=
  lookupA_setA_self c k v

theorem cacheGet_cacheSet_ne (c : Cache) (k q : String) (v : CacheVal) (h : ¬ q = k) :
    cacheGet (cacheSet c k v) q = cacheGet c q :=
  lookupA_setA_ne c k q v h

/-! ## find? helpers -/

def tripleMatches (node ns : String) (t : String × String × String) : Bool :=
  t.1 == node && t.2.1 == ns

theorem find?_append_or {α : Type} (l₁ l₂ : List α) (p : α → Bool) :
    (l₁ ++ l₂).find? p = ((l₁.find? p).or (l₂.find? p)) := by
  induction l₁ with
  | nil => simp
  | cons a t ih => by_cases h : p a <;> simp [List.find?_cons, h, ih]

theorem option_map_or {α β : Type} (f : α → β) (x y : Option α) :
    (x.or y).map f = ((x.map f).or (y.map f)) := by
  cases x <;> simp

theorem find?_eq_head?_filter {α : Type} (l : List α) (p : α → Bool) :
    l.find? p = (l.filter p).head? := by
  induction l with
  | nil => simp
  | cons a t ih =>
    cases h : p a with
    | true => rw [List.find?_cons_of_pos _ h, List.filter_cons_of_pos h, List.head?_cons]
    | false => rw [List.find?_cons_of_neg _ (by simp [h]), List.filter_cons_of_neg (by simp [h]), ih]

theorem find?_reverse_eq_getLast?_filter {α : Type} (l : List α) (p : α → Bool) :
    l.reverse.find? p = (l.filter p).getLast? := by
  rw [List.getLast?_eq_head?_reverse, ← List.filter_reverse, find?_eq_head?_filter]

/-! ## The transient node-to-pods map: characterization -/

/-- The step of the address loop, phrased on the already-validated
(node, namespace, pod) triple. -/
def tStep (acc : NodeToPods) (t : String × String × String) : NodeToPods :=
  setA acc t.1 (setA ((lookupA acc t.1).getD []) t.2.1 t.2.2)

/-- The valid (node, namespace, pod) triples of an endpoint object, in address
iteration order. -/
def validTriples (eps : Endpoints) : List (String × String × String) :=
  (allAddresses eps).filterMap addressInfo

theorem foldl_ntpStep_eq_tStep (l : List EndpointAddress) (acc : NodeToPods) :
    l.foldl ntpStep acc = (l.filterMap addressInfo).foldl tStep acc := by
  induction l generalizing acc with
  | nil => rfl
  | cons a t ih =>
    cases h : addressInfo a with
    | none => simp [List.foldl_cons, ntpStep, h, List.filterMap_cons, ih]
    | some tr =>
      obtain ⟨n0, ns0, p0⟩ := tr
      simp [List.foldl_cons, ntpStep, h, List.filterMap_cons, ih, tStep]

theorem lookupNtp_tStep (acc : NodeToPods) (t : String × String × String)
    (node ns : String) :
    lookupNtp (tStep acc t) node ns =
      if t.1 = node ∧ t.2.1 = ns then some t.2.2 else lookupNtp acc node ns := by
  obtain ⟨n0, ns0, p0⟩ := t
  by_cases hn : n0 = node
  · subst hn
    by_cases hns : ns0 = ns
    · subst hns
      simp [tStep, lookupNtp, lookupA_setA_self]
    · have h1 : ¬ (n0 = n0 ∧ ns0 = ns) := fun hh => hns hh.2
      rw [if_neg h1]
      simp only [tStep, lookupNtp, lookupA_setA_self]
      rw [lookupA_setA_ne _ _ _ _ (fun hh => hns hh.symm)]
      cases hl : lookupA acc n0 with
      | none => simp [lookupA]
      | some pods => simp [hl]
  · have h1 : ¬ (n0 = node ∧ ns0 = ns) := fun hh => hn hh.1
    rw [if_neg h1]
    simp only [tStep, lookupNtp]
    rw [lookupA_setA_ne _ _ _ _ (fun hh => hn hh.symm)]

theorem lookupNtp_foldl_tStep (l : List (String × String × String)) (acc : NodeToPods)
    (node ns : String) :
    lookupNtp (l.foldl tStep acc) node ns =
      (((l.reverse.find? (tripleMatches node ns)).map (fun t => t.2.2)).or
        (lookupNtp acc node ns)) := by
  induction l generalizing acc with
  | nil => simp
  | cons a t ih =>
    rw [List.foldl_cons, ih, List.reverse_cons, find?_append_or, option_map_or,
      Option.or_assoc]
    congr 1
    rw [lookupNtp_tStep]
    by_cases h : a.1 = node ∧ a.2.1 = ns
    · have hb : tripleMatches node ns a = true := by
        simp [tripleMatches, h.1, h.2]
      simp [if_pos h, List.find?_cons, hb]
    · have hb : ¬ tripleMatches node ns a = true := by
        simp only [tripleMatches, Bool.and_eq_true, beq_iff_eq]
        exact h
      simp only [if_neg h, List.find?_cons]
      rw [Bool.not_eq_true] at hb
      simp [hb]

theorem lookupNtp_nodeToPodsOf (eps : Endpoints) (node ns : String) :
    lookupNtp (nodeToPodsOf eps) node ns =
      ((validTriples eps).reverse.find? (tripleMatches node ns)).map (fun t => t.2.2) := by
  rw [nodeToPodsOf, foldl_ntpStep_eq_tStep, lookupNtp_foldl_tStep]
  simp [lookupNtp, lookupA, validTriples]

/-! ## nodup-keys invariants of the transient map -/

theorem nodup_foldl_ntpStep (l : List EndpointAddress) (acc : NodeToPods)
    (h1 : nodupKeys acc) (h2 : ∀ p ∈ acc, nodupKeys p.2) :
    nodupKeys (l.foldl ntpStep acc) ∧ ∀ p ∈ l.foldl ntpStep acc, nodupKeys p.2 := by
  induction l generalizing acc with
  | nil => exact ⟨h1, h2⟩
  | cons a t ih =>
    rw [List.foldl_cons]
    cases ha : addressInfo a with
    | none =>
      rw [ntpStep, ha]
      exact ih acc h1 h2
    | some tr =>
      obtain ⟨n0, ns0, p0⟩ := tr
      rw [ntpStep, ha]
      apply ih
      · exact nodupKeys_setA _ _ _ h1
      · intro p hp
        rcases mem_setA_elim _ _ _ _ hp with hq | hq
        · subst hq
          apply nodupKeys_setA
          cases hl : lookupA acc n0 with
          | none => simp [nodupKeys, keysOf]
          | some pods0 =>
            simp only [hl, Option.getD_some]
            exact h2 (n0, pods0) (mem_of_lookupA _ _ _ hl)
        · exact h2 p hq

theorem nodup_nodeToPodsOf (eps : Endpoints) :
    nodupKeys (nodeToPodsOf eps) ∧ ∀ p ∈ nodeToPodsOf eps, nodupKeys p.2 := by
  apply nodup_foldl_ntpStep
  · simp [nodupKeys, keysOf]
  · intro p hp
    simp at hp

/-! ## Membership lemmas for ServicesMapper.Set -/

theorem mem_insertSvc (s : ServiceSet) (svc x : String) :
    x ∈ insertSvc s svc ↔ x ∈ s ∨ x = svc := by
  by_cases h : svc ∈ s
  · simp only [insertSvc, if_pos h]
    constructor
    · exact fun hx => Or.inl hx
    · rintro (hx | hx)
      · exact hx
      · exact hx ▸ h
  · simp [insertSvc, if_neg h]

theorem ServicesForPod_eq_bind (m : ServicesMapper) (ns podName : String) :
    ServicesMapper.ServicesForPod m ns podName =
      (lookupA m ns).bind (fun pods => lookupA pods podName) := by
  cases h : lookupA m ns <;> simp [ServicesMapper.ServicesForPod, h]

theorem mem_ServicesForPod_Set (m : ServicesMapper) (ns2 pod2 name ns pod svc : String) :
    svc ∈ ((ServicesMapper.Set m ns2 pod2 name).ServicesForPod ns pod).getD [] ↔
      svc ∈ (m.ServicesForPod ns pod).getD [] ∨ (ns = ns2 ∧ pod = pod2 ∧ svc = name) := by
  simp only [ServicesMapper.Set, ServicesForPod_eq_bind]
  by_cases hns : ns2 = ns
  · subst hns
    rw [lookupA_setA_self, Option.some_bind]
    by_cases hpod : pod2 = pod
    · subst hpod
      rw [lookupA_setA_self]
      cases hl : lookupA m ns2 with
      | none => simp [hl, mem_insertSvc, lookupA]
      | some pods0 => simp [hl, mem_insertSvc]
    · rw [lookupA_setA_ne _ _ _ _ (fun hh => hpod hh.symm)]
      have hp2 : ¬ pod = pod2 := fun hh => hpod hh.symm
      cases hl : lookupA m ns2 with
      | none =>
        simp only [hl, Option.getD_none, Option.none_bind, lookupA]
        tauto
      | some pods0 =>
        simp only [hl, Option.getD_some, Option.some_bind]
        tauto
  · rw [lookupA_setA_ne _ _ _ _ (fun hh => hns hh.symm)]
    have hY : ¬ (ns = ns2 ∧ pod = pod2 ∧ svc = name) := fun hh => hns hh.1.symm
    rw [or_iff_left hY]

theorem mem_foldSet (pods : List (String × String)) (m0 : ServicesMapper)
    (name ns pod svc : String) :
    svc ∈ ((pods.foldl (fun m p => ServicesMapper.Set m p.1 p.2 name) m0).ServicesForPod
        ns pod).getD [] ↔
      svc ∈ (m0.ServicesForPod ns pod).getD [] ∨ (svc = name ∧ (ns, pod) ∈ pods) := by
  induction pods generalizing m0 with
  | nil => simp
  | cons p t ih =>
    rw [List.foldl_cons, ih, mem_ServicesForPod_Set]
    simp only [List.mem_cons, Prod.ext_iff]
    tauto

/-! ## servicesAt through mapService -/

theorem Services_foldSet (pods : List (String × String)) (name : String)
    (b : MetadataMapperBundle) :
    (pods.foldl (fun b p => { b with Services := ServicesMapper.Set b.Services p.1 p.2 name })
        b).Services
      = pods.foldl (fun m p => ServicesMapper.Set m p.1 p.2 name) b.Services := by
  induction pods generalizing b with
  | nil => rfl
  | cons p t ih => rw [List.foldl_cons, List.foldl_cons, ih]

theorem servicesAt_mapServiceNode_ne (name : String) (c : Cache)
    (entry : String × List (String × String)) (n ns pod : String) (h : ¬ n = entry.1) :
    servicesAt (mapServiceNode name c entry) n ns pod = servicesAt c n ns pod := by
  have hk : ¬ bundleCacheKey n = bundleCacheKey entry.1 :=
    fun hh => h (bundleCacheKey_inj _ _ hh)
  simp only [servicesAt, mapServiceNode]
  rw [cacheGet_cacheSet_ne _ _ _ _ hk]

theorem baseBundle_services (c : Cache) (k ns pod : String) :
    (((match getMetadataMapBundle k c with
       | some b => b
       | none => newMetadataMapperBundle) : MetadataMapperBundle).Services.ServicesForPod
        ns pod).getD []
      = servicesAt c k ns pod := by
  cases hg : cacheGet c (bundleCacheKey k) with
  | none =>
    simp [getMetadataMapBundle, hg, servicesAt, newMetadataMapperBundle,
      ServicesMapper.ServicesForPod, lookupA]
  | some v =>
    cases v with
    | bundle b => simp [getMetadataMapBundle, hg, servicesAt]
    | raw s =>
      simp [getMetadataMapBundle, hg, servicesAt, newMetadataMapperBundle,
        ServicesMapper.ServicesForPod, lookupA]

theorem mem_servicesAt_mapServiceNode_self (name : String) (c : Cache) (k : String)
    (pods : List (String × String)) (ns pod svc : String) (hnd : nodupKeys pods) :
    svc ∈ servicesAt (mapServiceNode name c (k, pods)) k ns pod ↔
      svc ∈ servicesAt c k ns pod ∨ (svc = name ∧ lookupA pods ns = some pod) := by
  have hL : servicesAt (mapServiceNode name c (k, pods)) k ns pod =
      ((pods.foldl (fun m p => ServicesMapper.Set m p.1 p.2 name)
        ((match getMetadataMapBundle k c with
          | some b => b
          | none => newMetadataMapperBundle) : MetadataMapperBundle).Services).ServicesForPod
            ns pod).getD [] := by
    simp only [servicesAt, mapServiceNode, cacheGet_cacheSet_self, Services_foldSet]
  rw [hL, mem_foldSet, baseBundle_services]
  have hmem : (ns, pod) ∈ pods ↔ lookupA pods ns = some pod :=
    ⟨fun hm => lookupA_of_mem_nodup _ _ _ hnd hm, fun hl => mem_of_lookupA _ _ _ hl⟩
  rw [hmem]

theorem mem_servicesAt_mapFold (entries : NodeToPods) (name : String) (c : Cache)
    (h1 : nodupKeys entries) (h2 : ∀ p ∈ entries, nodupKeys p.2) (n ns pod svc : String) :
    svc ∈ servicesAt (entries.foldl (mapServiceNode name) c) n ns pod ↔
      svc ∈ servicesAt c n ns pod ∨ (svc = name ∧ lookupNtp entries n ns = some pod) := by
  induction entries generalizing c with
  | nil => simp [lookupNtp, lookupA]
  | cons e t ih =>
    obtain ⟨k, pods⟩ := e
    rw [List.foldl_cons]
    have h1t : nodupKeys t := by
      simp only [nodupKeys, keysOf_cons, List.nodup_cons] at h1
      exact h1.2
    have h2t : ∀ p ∈ t, nodupKeys p.2 := fun p hp => h2 p (List.mem_cons_of_mem _ hp)
    rw [ih (mapServiceNode name c (k, pods)) h1t h2t]
    by_cases hn : n = k
    · subst hn
      have hkt : lookupA t n = none := by
        rw [lookupA_none_iff]
        simp only [nodupKeys, keysOf_cons, List.nodup_cons] at h1
        exact h1.1
      have hnt : lookupNtp t n ns = none := by simp [lookupNtp, hkt]
      have hcons : lookupNtp ((n, pods) :: t) n ns = lookupA pods ns := by
        simp [lookupNtp, lookupA]
      have hpp : nodupKeys pods := h2 (n, pods) (List.mem_cons_self _ _)
      rw [mem_servicesAt_mapServiceNode_self name c n pods ns pod svc hpp, hcons, hnt]
      simp
    · have hkn : ¬ k = n := fun hh => hn hh.symm
      rw [servicesAt_mapServiceNode_ne name c (k, pods) n ns pod hn]
      have hcons : lookupNtp ((k, pods) :: t) n ns = lookupNtp t n ns := by
        simp [lookupNtp, lookupA, hkn]
      rw [hcons]

theorem mem_servicesAt_mapService (eps : Endpoints) (c : Cache) (n ns pod svc : String) :
    svc ∈ servicesAt (mapService eps c) n ns pod ↔
      svc ∈ servicesAt c n ns pod ∨
        (svc = eps.Name ∧ lookupNtp (nodeToPodsOf eps) n ns = some pod) := by
  obtain ⟨hnd1, hnd2⟩ := nodup_nodeToPodsOf eps
  exact mem_servicesAt_mapFold (nodeToPodsOf eps) eps.Name c hnd1 hnd2 n ns pod svc

theorem mem_servicesAt_foldl (l : List Endpoints) (c : Cache) (n ns pod svc : String) :
    svc ∈ servicesAt (l.foldl (fun c e => mapService e c) c) n ns pod ↔
      svc ∈ servicesAt c n ns pod ∨
        ∃ e, e ∈ l ∧ svc = e.Name ∧ lookupNtp (nodeToPodsOf e) n ns = some pod := by
  induction l generalizing c with
  | nil => simp
  | cons e t ih =>
    rw [List.foldl_cons, ih, mem_servicesAt_mapService]
    constructor
    · rintro ((h | h) | ⟨e2, he2, h3⟩)
      · exact Or.inl h
      · exact Or.inr ⟨e, List.mem_cons_self _ _, h⟩
      · exact Or.inr ⟨e2, List.mem_cons_of_mem _ he2, h3⟩
    · rintro (h | ⟨e2, he2, h3⟩)
      · exact Or.inl (Or.inl h)
      · rcases List.mem_cons.mp he2 with he | he
        · subst he
          exact Or.inl (Or.inr h3)
        · exact Or.inr ⟨e2, he, h3⟩

/-! ## Concrete sample data -/

def refA : ObjectReference := ⟨ "Pod", "foo", "podA"⟩

def refB : ObjectReference := ⟨ "Pod", "foo", "podB"⟩

def addrA : EndpointAddress := ⟨some refA, some "node1"⟩

def addrB : EndpointAddress := ⟨some refB, some "node1"⟩

/-- An endpoint object for service svc1 with two valid addresses on the same
node and namespace (podA then podB). -/
def svc1Eps : Endpoints := ⟨ "bar", "svc1", [⟨[addrA, addrB]⟩]⟩

/-! ## Claim C2 -/

/-- The reconciliation of an endpoint object references the (node, namespace, pod)
address when some valid address of the object carries exactly those fields. -/
abbrev referencesAddress (eps : Endpoints) (node ns pod : String) : Prop :=
  (node, ns, pod) ∈ validTriples eps

/-- Claim C2 exactly as stated: after a sequence of add/update reconciliations
from an empty cache, the stored service-name set at each valid address equals
the union of the names of all endpoint objects whose reconciliations referenced
that address. -/
def C2ClaimAsStated : Prop :=
  ∀ (l : List Endpoints) (node ns pod svc : String),
    svc ∈ servicesAt (l.foldl (fun c e => mapService e c) []) node ns pod ↔
      ∃ e, e ∈ l ∧ e.Name = svc ∧ referencesAddress e node ns pod

/-- Claim C2, as stated, is false: one reconciliation of svc1 with two valid
addresses (podA then podB) on the same node and namespace leaves podA, a
referenced valid address, with no stored service names, because the transient
per-node map keeps only the last pod per (node, namespace). -/
theorem mapService_union_claim_counterexample : ¬ C2ClaimAsStated := by
  intro h
  have h2 := (h [svc1Eps] "node1" "foo" "podA" "svc1").mpr
    ⟨svc1Eps, by decide, by decide, by decide⟩
  exact absurd h2 (by decide)

/-- Claim C2 (amended): after any sequence of add/update reconciliations from an
empty cache, the service-name set stored for node, namespace and pod name holds
exactly the names of the endpoint objects whose reconciliation retained that pod
in its transient node-to-pods map (that is, whose last valid address for that
(node, namespace) pair named that pod); in particular the own name of the object is
merged into the existing set, never replacing names contributed by
reconciliations of different services. -/
theorem mapService_sequence_union (l : List Endpoints) (node ns pod svc : String) :
    svc ∈ servicesAt (l.foldl (fun c e => mapService e c) []) node ns pod ↔
      ∃ e, e ∈ l ∧ svc = e.Name ∧ lookupNtp (nodeToPodsOf e) node ns = some pod := by
  rw [mem_servicesAt_foldl]
  have hempty : servicesAt [] node ns pod = [] := rfl
  rw [hempty]
  simp only [List.not_mem_nil, false_or]

/-! ## Claim C4 -/

/-- The endpoint object restricted to the addresses that pass the validity
filter (pod target present, kind Pod, non-empty names, node name present). -/
def validAddressesOnly (eps : Endpoints) : Endpoints :=
  Endpoints.mk eps.Namespace eps.Name
    (eps.Subsets.map
      (fun s => EndpointSubset.mk (s.Addresses.filter (fun a => (addressInfo a).isSome))))

theorem foldl_ntpStep_filter (l : List EndpointAddress) (acc : NodeToPods) :
    (l.filter (fun a => (addressInfo a).isSome)).foldl ntpStep acc = l.foldl ntpStep acc := by
  induction l generalizing acc with
  | nil => rfl
  | cons a t ih =>
    cases h : addressInfo a with
    | none =>
      have hb : (addressInfo a).isSome = false := by rw [h]; rfl
      simp only [List.filter_cons, hb, Bool.false_eq_true, if_false, List.foldl_cons]
      rw [ih, show ntpStep acc a = acc from by rw [ntpStep, h]]
    | some tr =>
      have hb : (addressInfo a).isSome = true := by rw [h]; rfl
      simp only [List.filter_cons, hb, if_true, List.foldl_cons]
      exact ih (ntpStep acc a)

theorem allAddresses_validOnly (eps : Endpoints) :
    allAddresses (validAddressesOnly eps) =
      (allAddresses eps).filter (fun a => (addressInfo a).isSome) := by
  simp only [allAddresses, validAddressesOnly, List.map_map]
  generalize eps.Subsets = L
  induction L with
  | nil => rfl
  | cons s t ih =>
    simp only [List.map_cons, List.flatten_cons, List.filter_append, ih, Function.comp]

theorem nodeToPodsOf_validOnly (eps : Endpoints) :
    nodeToPodsOf (validAddressesOnly eps) = nodeToPodsOf eps := by
  rw [nodeToPodsOf, nodeToPodsOf, allAddresses_validOnly, foldl_ntpStep_filter]

theorem mapService_validOnly (eps : Endpoints) (c : Cache) :
    mapService (validAddressesOnly eps) c = mapService eps c := by
  rw [mapService, mapService, nodeToPodsOf_validOnly]
  rfl

/-- Claim C4: `mapService` derives its node-to-pod entries only from addresses
passing the validity filter: dropping every invalid address changes neither the
transient node-to-pods map nor any cache write, and every entry of the
transient map comes from some valid address of the object. -/
theorem mapService_ignores_invalid_addresses (eps : Endpoints) (c : Cache) :
    mapService (validAddressesOnly eps) c = mapService eps c ∧
    nodeToPodsOf (validAddressesOnly eps) = nodeToPodsOf eps ∧
    (∀ node ns pod, lookupNtp (nodeToPodsOf eps) node ns = some pod →
      ∃ a, a ∈ allAddresses eps ∧ addressInfo a = some (node, ns, pod)) := by
  refine ⟨mapService_validOnly eps c, nodeToPodsOf_validOnly eps, ?_⟩
  intro node ns pod h
  rw [lookupNtp_nodeToPodsOf] at h
  cases hf : (validTriples eps).reverse.find? (tripleMatches node ns) with
  | none =>
    rw [hf] at h
    simp at h
  | some t =>
    rw [hf] at h
    obtain ⟨t1, t2, t3⟩ := t
    simp at h
    have hp := List.find?_some hf
    have hm := List.mem_of_find?_eq_some hf
    rw [List.mem_reverse] at hm
    simp only [tripleMatches, Bool.and_eq_true, beq_iff_eq] at hp
    obtain ⟨a, ha, hai⟩ := List.mem_filterMap.mp hm
    refine ⟨a, ha, ?_⟩
    rw [hai, hp.1, hp.2, h]

theorem mapService_ignores_invalid_addresses_witness :
    lookupNtp (nodeToPodsOf svc1Eps) "node1" "foo" = some "podB" ∧
      ∃ a, a ∈ allAddresses svc1Eps ∧ addressInfo a = some ( "node1", "foo", "podB") :=
  ⟨by decide, (mapService_ignores_invalid_addresses svc1Eps []).2.2 _ _ _ (by decide)⟩

/-! ## Claim C5 -/

/-- The valid triples of one endpoint object that name the given node and
namespace, in address iteration order. -/
def matchingTriples (eps : Endpoints) (node ns : String) : List (String × String × String) :=
  (validTriples eps).filter (tripleMatches node ns)

/-- Claim C5: within one `mapService` pass, when two or more valid addresses
share the same node name and pod namespace, the transient node-to-pods map
retains only the pod name of the last such address iterated. -/
theorem mapService_last_write_wins (eps : Endpoints) (node ns : String)
    (h : 2 ≤ (matchingTriples eps node ns).length) :
    lookupNtp (nodeToPodsOf eps) node ns =
      ((matchingTriples eps node ns).getLast?).map (fun t => t.2.2) := by
  rw [lookupNtp_nodeToPodsOf, find?_reverse_eq_getLast?_filter]
  rfl

theorem mapService_last_write_wins_witness :
    2 ≤ (matchingTriples svc1Eps "node1" "foo").length ∧
      lookupNtp (nodeToPodsOf svc1Eps) "node1" "foo" =
        ((matchingTriples svc1Eps "node1" "foo").getLast?).map (fun t => t.2.2) :=
  ⟨by decide, mapService_last_write_wins svc1Eps _ _ (by decide)⟩

/-! ## Claim C1 -/

def c1Bundle : MetadataMapperBundle := ⟨[( "foo", [( "podA", [ "svc1"])])]⟩

/-- A cache where node n2 has a bundle still referencing svc1 and node n1 has
no bundle at all. -/
def c1Cache : Cache := [(bundleCacheKey "n2", CacheVal.bundle c1Bundle)]

/-- Claim C1 fails on the code: cleaning up deleted service svc1 of namespace
foo over nodes n1 and n2, where n1 has no cached bundle, returns success while
leaving the bundle of n2 untouched (svc1 still mapped for podA): the early
return of the loop at the missing bundle of n1 abandons every remaining node instead of skipping
only n1. The third conjunct shows that the loop body, had it reached n2, would
have removed svc1 and pruned the emptied pod entry. -/
theorem mapDeletedService_aborts_on_missing_bundle :
    mapDeletedService "foo" "svc1" (Except.ok [ "n1", "n2"]) c1Cache = (c1Cache, none) ∧
      servicesAt c1Cache "n2" "foo" "podA" = [ "svc1"] ∧
      servicesAt (mapDeletedServiceLoop "foo" "svc1" [ "n2"] c1Cache) "n2" "foo" "podA" = [] := by
  refine ⟨rfl, rfl, rfl⟩

/-! ## Claim C3 -/

/-- Claim C3: on success the key is acknowledged with its retry counter
cleared; on failure it is re-enqueued exactly when its current retry count is
strictly below `maxRetries` (with the counter incremented), and once the count
has reached the ceiling the key is dropped: counter cleared, not re-enqueued. -/
theorem processNextWorkItem_retry_policy (reconcile : String → Option String)
    (q : WorkQueue) (key : String) (rest : List String)
    (hp : q.pending = key :: rest) (hk : ¬ key ∈ rest) :
    (reconcile key = none →
        WorkQueue.numRequeues (processNextWorkItem reconcile q) key = 0 ∧
          ¬ key ∈ (processNextWorkItem reconcile q).pending) ∧
    (∀ e, reconcile key = some e →
        ((key ∈ (processNextWorkItem reconcile q).pending ↔
            WorkQueue.numRequeues q key < maxRetries) ∧
          (WorkQueue.numRequeues q key < maxRetries →
            WorkQueue.numRequeues (processNextWorkItem reconcile q) key =
              WorkQueue.numRequeues q key + 1) ∧
          (¬ WorkQueue.numRequeues q key < maxRetries →
            WorkQueue.numRequeues (processNextWorkItem reconcile q) key = 0 ∧
              ¬ key ∈ (processNextWorkItem reconcile q).pending))) := by
  obtain ⟨pend, retr⟩ := q
  simp only at hp
  subst hp
  constructor
  · intro hre
    simp only [processNextWorkItem, hre, WorkQueue.forget, WorkQueue.numRequeues]
    constructor
    · rw [lookupA_eraseA_self]
      rfl
    · exact hk
  · intro e hre
    simp only [processNextWorkItem, hre, WorkQueue.numRequeues]
    by_cases hlt : (lookupA retr key).getD 0 < maxRetries
    · rw [if_pos hlt]
      refine ⟨?_, ?_, ?_⟩
      · apply iff_of_true
        · simp [WorkQueue.addRateLimited, hk]
        · exact hlt
      · intro _
        simp only [WorkQueue.addRateLimited, WorkQueue.numRequeues]
        rw [lookupA_setA_self]
        rfl
      · intro hcon
        exact absurd hlt hcon
    · rw [if_neg hlt]
      refine ⟨?_, ?_, ?_⟩
      · apply iff_of_false
        · exact hk
        · exact hlt
      · intro hcon
        exact absurd hcon hlt
      · intro _
        constructor
        · simp only [WorkQueue.forget, WorkQueue.numRequeues]
          rw [lookupA_eraseA_self]
          rfl
        · exact hk

/-- A queue holding one pending key whose retry counter has already reached the
ceiling. -/
def c3Queue : WorkQueue := ⟨[ "k"], [( "k", 15)]⟩

theorem processNextWorkItem_retry_policy_witness :
    WorkQueue.numRequeues (processNextWorkItem (fun _ => some "boom") c3Queue) "k" = 0 ∧
      ¬ "k" ∈ (processNextWorkItem (fun _ => some "boom") c3Queue).pending :=
  ((processNextWorkItem_retry_policy (fun _ => some "boom") c3Queue "k" [] rfl
    (by simp)).2 "boom" rfl).2.2 (by decide)

/-! ## Claim C6 -/

/-- Claim C6: when no bundle is cached for the node, or the cached bundle has no
entry for the pod, `GetPodMetadataNames` returns no data and no error. -/
theorem GetPodMetadataNames_absent_no_error (c : Cache) (nodeName ns podName : String)
    (h : cacheGet c (bundleCacheKey nodeName) = none ∨
      ∃ b, cacheGet c (bundleCacheKey nodeName) = some (CacheVal.bundle b) ∧
        ServicesMapper.ServicesForPod b.Services ns podName = none) :
    GetPodMetadataNames c nodeName ns podName = Except.ok [] := by
  rcases h with h | ⟨b, hb, hs⟩
  · simp [GetPodMetadataNames, h]
  · simp [GetPodMetadataNames, hb, hs]

theorem GetPodMetadataNames_absent_no_error_witness :
    GetPodMetadataNames [] "n1" "foo" "podA" = Except.ok [] :=
  GetPodMetadataNames_absent_no_error [] "n1" "foo" "podA" (Or.inl rfl)

/-! ## Claim C7 -/

/-- Claim C7: a cached value of the wrong shape makes `GetPodMetadataNames`
return the invalid-cache-format error, an outcome distinct from the no-error,
no-data result of an absent entry. -/
theorem GetPodMetadataNames_invalid_format_error (c : Cache) (nodeName ns podName s : String)
    (h : cacheGet c (bundleCacheKey nodeName) = some (CacheVal.raw s)) :
    GetPodMetadataNames c nodeName ns podName =
        Except.error ( "invalid cache format for the cacheKey: " ++ bundleCacheKey nodeName) ∧
      ∀ l, ¬ GetPodMetadataNames c nodeName ns podName = Except.ok l := by
  have he : GetPodMetadataNames c nodeName ns podName =
      Except.error ( "invalid cache format for the cacheKey: " ++ bundleCacheKey nodeName) := by
    simp [GetPodMetadataNames, h]
  refine ⟨he, ?_⟩
  intro l hcon
  rw [he] at hcon
  exact Except.noConfusion hcon

/-- A cache whose entry for node n1 is not a bundle. -/
def c7Cache : Cache := [(bundleCacheKey "n1", CacheVal.raw "zzz")]

theorem GetPodMetadataNames_invalid_format_error_witness :
    GetPodMetadataNames c7Cache "n1" "foo" "podA" =
        Except.error ( "invalid cache format for the cacheKey: " ++ bundleCacheKey "n1") ∧
      ∀ l, ¬ GetPodMetadataNames c7Cache "n1" "foo" "podA" = Except.ok l :=
  GetPodMetadataNames_invalid_format_error c7Cache "n1" "foo" "podA" "zzz" rfl

/-! ## Claim C8 -/

/-- Claim C8: a delete payload that is neither an Endpoints nor a tombstone
containing one leaves the work queue unchanged; a tombstone containing an
Endpoints resolves to the namespace/name key of the contained object, which is
enqueued. -/
theorem deleteEndpoints_tombstone_handling (q : WorkQueue) :
    (∀ s, deleteEndpoints q (RawObj.other s) = q) ∧
    (∀ s, deleteEndpoints q (RawObj.tombstone (RawObj.other s)) = q) ∧
    (∀ t, deleteEndpoints q (RawObj.tombstone (RawObj.tombstone t)) = q) ∧
    (∀ e, deleteEndpoints q (RawObj.tombstone (RawObj.endpoints e)) =
      WorkQueue.add q (objectKey e)) :=
  ⟨fun _ => rfl, fun _ => rfl, fun _ => rfl, fun _ => rfl⟩

/-! ## Claim C9 -/

/-- Claim C9: for a well-formed key whose store lookup reports found or
not-found, `reconcileKey` fails exactly when the node
listing of the not-found cleanup path fails; not-found routes to `mapDeletedService` rather than returning an
error, and a found object goes through `mapService`, which always succeeds. -/
theorem reconcileKey_error_policy (lookup : String → String → EndpointsLookup)
    (nodes : Except String (List String)) (c : Cache) (key ns name : String)
    (hsplit : SplitMetaNamespaceKey key = Except.ok (ns, name))
    (hok : ∀ e, ¬ lookup ns name = EndpointsLookup.lookupFailure e) :
    ((reconcileKey lookup nodes c key).2 = none ↔
        ¬ (lookup ns name = EndpointsLookup.notFound ∧
            ∃ msg, nodes = Except.error msg)) ∧
    (lookup ns name = EndpointsLookup.notFound →
      reconcileKey lookup nodes c key = mapDeletedService ns name nodes c) ∧
    (∀ eps, lookup ns name = EndpointsLookup.found eps →
      reconcileKey lookup nodes c key = (mapService eps c, none)) := by
  simp only [reconcileKey, hsplit]
  cases hlk : lookup ns name with
  | found eps =>
    refine ⟨?_, ?_, ?_⟩
    · apply iff_of_true
      · rfl
      · rintro ⟨h1, _⟩
        exact EndpointsLookup.noConfusion h1
    · intro h1
      exact EndpointsLookup.noConfusion h1
    · intro eps2 he
      injection he with he2
      rw [he2]
  | notFound =>
    cases nodes with
    | ok ln =>
      refine ⟨?_, fun _ => rfl, ?_⟩
      · apply iff_of_true
        · rfl
        · rintro ⟨_, msg, hmsg⟩
          exact Except.noConfusion hmsg
      · intro eps he
        exact EndpointsLookup.noConfusion he
    | error msg =>
      refine ⟨?_, fun _ => rfl, ?_⟩
      · apply iff_of_false
        · intro hcon
          exact Option.noConfusion hcon
        · intro hcon
          exact hcon ⟨rfl, msg, rfl⟩
      · intro eps he
        exact EndpointsLookup.noConfusion he
  | lookupFailure e => exact absurd hlk (hok e)

def c9Lookup : String → String → EndpointsLookup := fun _ _ => EndpointsLookup.notFound

theorem reconcileKey_error_policy_witness :
    reconcileKey c9Lookup (Except.ok []) [] "bar/svc1" =
      mapDeletedService "bar" "svc1" (Except.ok []) [] :=
  (reconcileKey_error_policy c9Lookup (Except.ok []) [] "bar/svc1" "bar" "svc1" rfl
    (fun e h => EndpointsLookup.noConfusion h)).2.1 rfl

/-! ## Claim C10 -/

/-- Claim C10: the read path leaves the cache unchanged: threading the cache
state through every cache operation of `GetPodMetadataNames` returns the very
cache that was passed in, along with the same answer as the pure read. -/
theorem GetPodMetadataNames_preserves_cache (c : Cache) (nodeName ns podName : String) :
    (GetPodMetadataNamesS c nodeName ns podName).1 = c ∧
      (GetPodMetadataNamesS c nodeName ns podName).2 =
        GetPodMetadataNames c nodeName ns podName := by
  have hg2 : lookupA c (bundleCacheKey nodeName) = cacheGet c (bundleCacheKey nodeName) := rfl
  cases hg : cacheGet c (bundleCacheKey nodeName) with
  | none =>
    constructor <;> simp [GetPodMetadataNamesS, GetPodMetadataNames, cacheGetS, hg2, hg]
  | some v =>
    cases v with
    | raw s =>
      constructor <;> simp [GetPodMetadataNamesS, GetPodMetadataNames, cacheGetS, hg2, hg]
    | bundle b =>
      cases hs : ServicesMapper.ServicesForPod b.Services ns podName with
      | none =>
        constructor <;>
          simp [GetPodMetadataNamesS, GetPodMetadataNames, cacheGetS, hg2, hg, hs]
      | some sl =>
        constructor <;>
          simp [GetPodMetadataNamesS, GetPodMetadataNames, cacheGetS, hg2, hg, hs]
